import Mathlib

/-!
Verification model of the BrainlyTree chunked image-transfer protocol, as
implemented by the two source files of the repository:

* the device simulator (sender side), file mqtt-test-device-simulator.py:
  chunk emission, metadata emission, acknowledgment handling, missing-chunk
  resend, status messages and the offline-recovery drain;
* the receiving application, file scripts/BrainlyTree_Python_AppV2.py:
  the on_message handler accumulating chunks per (device, image) key and the
  save_image routine that assembles and persists a complete image.

JSON payloads are modelled by JVal / JObj.  The MQTT transport, TLS
configuration, wall-clock time, file system writes and console logging are
external collaborators and are not modelled; publishing is modelled by
returning the list of (topic, message) pairs a call hands to the transport.
All integers occurring in protocol messages are nonnegative and are
modelled by Nat.
-/

/-- A JSON value as it occurs in the protocol messages.  Arrays occur in the
protocol only as arrays of nonnegative integers (chunk payload byte lists,
missing-chunk index lists), so the array constructor carries List Nat. -/
inductive JVal where
  | num (n : Nat)
  | str (s : String)
  | arr (l : List Nat)
  | obj (fields : List (String × JVal))

/-- A JSON object: an association list from field names to values, modelling a
Python dict with unique keys. -/
abbrev JObj := List (String × JVal)

/-- Association-list lookup, modelling Python dict membership / `.get`:
returns the value of the first matching key. -/
def lookupA {α : Type} (k : String) : List (String × α) → Option α
  | [] => none
  | (k2, v) :: t => if k = k2 then some v else lookupA k t

/-- Association-list update, modelling Python dict assignment: replaces the
value of an existing key in place, otherwise appends the new binding. -/
def setA {α : Type} (k : String) (v : α) : List (String × α) → List (String × α)
  | [] => [(k, v)]
  | (k2, v2) :: t => if k = k2 then (k, v) :: t else (k2, v2) :: setA k v t

/-- Association-list deletion, modelling Python `del d[k]`. -/
def eraseA {α : Type} (k : String) : List (String × α) → List (String × α)
  | [] => []
  | (k2, v2) :: t => if k = k2 then t else (k2, v2) :: eraseA k t

/-- Python string interpolation of a JSON value, as used by the receiver to
build the composite key f-string `f"{device_id}|{image_name}"`.  Strings
interpolate to themselves, integers to their decimal form, and a list of
integers to Python's list syntax.  (Interpolation of a nested object never
occurs in a protocol message and is rendered opaquely.) -/
def pyShow : JVal → String
  | .str s => s
  | .num n => toString n
  | .arr l => "[" ++ String.intercalate ", " (l.map toString) ++ "]"
  | .obj _ => "\x7b...\x7d"

/-- Python string interpolation of the result of `dict.get`, which is `None`
for a missing key: `f"{None}"` is the string "None". -/
def pyShowOpt : Option JVal → String
  | none => "None"
  | some v => pyShow v

/-! ## Base64 decoding (receiver line 87: `base64.b64decode(payload['payload'])`)

The receiver decodes the chunk payload field with base64.  The decoder below
follows RFC 4648 as Python's `base64.b64decode` implements it on canonically
encoded input: characters outside the alphabet are discarded, the remaining
length must be a multiple of four, and `=` padding may occur only at the end.
Passing a non-string (for instance the list of integers the simulator sends)
raises a TypeError in Python; this is modelled by `b64pyDecode` returning
`none` for every non-string value. -/

/-- Value of a single base64 alphabet character, `none` for everything else. -/
def b64val (c : Char) : Option Nat :=
  if 'A' ≤ c ∧ c ≤ 'Z' then some (c.toNat - 65)
  else if 'a' ≤ c ∧ c ≤ 'z' then some (c.toNat - 97 + 26)
  else if '0' ≤ c ∧ c ≤ '9' then some (c.toNat - 48 + 52)
  else if c = '+' then some 62
  else if c = '/' then some 63
  else none

/-- Decode base64 characters in groups of four; `=` padding is accepted only
in the final group. -/
def b64groups : List Char → Option (List Nat)
  | [] => some []
  | c1 :: c2 :: c3 :: c4 :: rest =>
    match b64val c1, b64val c2 with
    | some v1, some v2 =>
      if c3 = '=' then
        if c4 = '=' ∧ rest = [] then some [v1 * 4 + v2 / 16] else none
      else
        match b64val c3 with
        | some v3 =>
          if c4 = '=' then
            if rest = [] then some [v1 * 4 + v2 / 16, (v2 % 16) * 16 + v3 / 4] else none
          else
            match b64val c4 with
            | some v4 =>
              match b64groups rest with
              | some bs => some ([v1 * 4 + v2 / 16, (v2 % 16) * 16 + v3 / 4, (v3 % 4) * 64 + v4] ++ bs)
              | none => none
            | none => none
        | none => none
    | _, _ => none
  | _ => none

/-- Base64-decode a string: discard foreign characters, then decode in groups
of four.  Returns `none` where Python raises binascii.Error. -/
def b64decodeStr (s : String) : Option (List Nat) :=
  b64groups (s.data.filter (fun c => (b64val c).isSome || c == '='))

/-- The receiver's `base64.b64decode(payload['payload'])`: a missing payload
field raises KeyError, and a non-string value (a number, a list of integers
as the simulator sends, or an object) raises TypeError; every raise happens
before the handler mutates any state and is modelled by `none`. -/
def b64pyDecode : Option JVal → Option (List Nat)
  | some (.str s) => b64decodeStr s
  | _ => none

/-! ## Receiver state (scripts/BrainlyTree_Python_AppV2.py)

`image_chunks` is a process-wide defaultdict from the composite key
`f"{device_id}|{image_name}"` to a per-image record
`{'max_chunks': ..., 'chunks': {...}, 'received_count': ...}`.
The `chunks` dict maps a chunk index to its decoded bytes; `save_image`
iterates it in sorted key order, so the finite map is represented here as an
association list kept sorted by strictly increasing key.  Saved images are
recorded as (image_name, bytes) pairs in the order the receiver writes them
(the unique timestamp prefix of the file name is wall-clock time and is not
modelled). -/

/-- The per-image record of the receiver's `image_chunks` dict.  `max_chunks`
holds whatever JSON value the metadata message carried (`None` before any
metadata); the completeness test compares it to an integer with Python `==`
semantics. -/
structure Buffer where
  max_chunks : Option JVal
  chunks : List (Nat × List Nat)
  received_count : Nat

/-- The defaultdict's default record: `{'max_chunks': None, 'chunks': {}, 'received_count': 0}`. -/
def defaultBuffer : Buffer := ⟨none, [], 0⟩

/-- The receiver's global state: the `image_chunks` map and the log of saved
images. -/
structure RState where
  image_chunks : List (String × Buffer)
  saved : List (String × List Nat)

/-- The receiver's initial state: no buffers, nothing saved. -/
def initRState : RState := ⟨[], []⟩

/-- Insert a chunk into the key-sorted chunk map, replacing the previous bytes
for an index that is already present (Python `data['chunks'][chunk_id] = chunk_bytes`). -/
def insertChunk (id : Nat) (bs : List Nat) : List (Nat × List Nat) → List (Nat × List Nat)
  | [] => [(id, bs)]
  | (k, v) :: t =>
    if id < k then (id, bs) :: (k, v) :: t
    else if id = k then (id, bs) :: t
    else (k, v) :: insertChunk id bs t

/-- Lookup in the chunk map (Python `chunks[i]`). -/
def lookupChunk (id : Nat) : List (Nat × List Nat) → Option (List Nat)
  | [] => none
  | (k, v) :: t => if id = k then some v else lookupChunk id t

/-- `b''.join(chunks[i] for i in sorted(chunks))` on the key-sorted
representation: concatenate the chunk byte lists in index order. -/
def mergedBytes (cs : List (Nat × List Nat)) : List Nat :=
  (cs.map Prod.snd).flatten

/-- The receiver's defaultdict read `image_chunks[image_key]` as it behaves
inside an expression that does not store the default back (the handler does
store it back immediately via assignment, modelled in `chunkStep`). -/
def buffOf (st : RState) (key : String) : Buffer :=
  (lookupA key st.image_chunks).getD defaultBuffer

/-- The completeness test of on_message line 99,
`data['received_count'] == max_chunks`, with Python equality semantics:
an int compares equal only to the same int; comparison with None, a string,
a list or a dict is False. -/
def countEqMax (n : Nat) : Option JVal → Bool
  | some (.num m) => n == m
  | _ => false

/-- save_image (lines 29-47): read the record's chunks, concatenate them in
sorted index order, write the bytes out (recorded in `saved`), and delete the
record from `image_chunks`. -/
def save_image (key name : String) (st : RState) : RState :=
  let cs := (buffOf st key).chunks
  ⟨eraseA key st.image_chunks, st.saved ++ [(name, mergedBytes cs)]⟩

/-- The metadata branch of on_message (lines 68-82): store the received
`total_chunk_count` value into the record's `max_chunks`, creating the record
if the key is absent; chunks already stored are kept. -/
def metaStep (key : String) (v : JVal) (st : RState) : RState :=
  match lookupA key st.image_chunks with
  | none => ⟨setA key ⟨some v, [], 0⟩ st.image_chunks, st.saved⟩
  | some b => ⟨setA key ⟨some v, b.chunks, b.received_count⟩ st.image_chunks, st.saved⟩

/-- The chunk branch of on_message (lines 85-101): read the record (the
defaultdict creates it when absent), store the decoded bytes under the chunk
index, set `received_count` to the number of stored chunks, and, when that
count equals `max_chunks`, assemble and save the image. -/
def chunkStep (key name : String) (id : Nat) (bytes : List Nat) (st : RState) : RState :=
  let data := buffOf st key
  let chunks2 := insertChunk id bytes data.chunks
  let data2 : Buffer := ⟨data.max_chunks, chunks2, chunks2.length⟩
  let st2 : RState := ⟨setA key data2 st.image_chunks, st.saved⟩
  if countEqMax chunks2.length data.max_chunks then save_image key name st2 else st2

/-- on_message (lines 59-106).  The handler parses the JSON payload, then:
a message with a `total_chunk_count` field and no `chunk_id` field is
metadata; a message with a `chunk_id` field is a chunk, whose payload field
is base64-decoded before any state is touched (a decode failure raises and
the whole message is dropped); anything else is logged as unknown and
ignored.  The handler publishes nothing in any branch — the returned message
list is the complete record of what it hands to the transport, and it is
empty in every case.  (A non-integer `chunk_id` value never occurs in a
protocol message and is outside the model.) -/
def on_message (st : RState) (payload : JObj) : RState × List (String × JObj) :=
  let devS := pyShowOpt (lookupA "device_id" payload)
  let nameS := pyShowOpt (lookupA "image_name" payload)
  let key := devS ++ "|" ++ nameS
  if (lookupA "total_chunk_count" payload).isSome && !(lookupA "chunk_id" payload).isSome then
    match lookupA "total_chunk_count" payload with
    | some v => (metaStep key v st, [])
    | none => (st, [])
  else
    match lookupA "chunk_id" payload with
    | some (.num id) =>
      match b64pyDecode (lookupA "payload" payload) with
      | some bytes => (chunkStep key nameS id bytes st, [])
      | none => (st, [])
    | some _ => (st, [])
    | none => (st, [])

/-- Run the receiver over a list of inbound messages, collecting the (empty)
outbound traffic. -/
def recvRun (st : RState) (msgs : List JObj) : RState × List (String × JObj) :=
  msgs.foldl (fun acc m => ((on_message acc.1 m).1, acc.2 ++ (on_message acc.1 m).2)) (st, [])

/-! ## Sender state (mqtt-test-device-simulator.py, class MockESP32Device)

The MQTT client object and the connection flag belong to the transport
adapter; the remaining attributes of the device object are modelled below.
The four BME680 sensor attributes are IEEE floats that travel opaquely in
metadata telemetry and are never read by any transfer logic; they are carried
as rationals purely so that frame conditions ("all other state unchanged")
can be stated over the whole record. -/

structure DeviceState where
  device_mac : String
  test_mode : String
  connected : Bool
  pending_images : List String
  current_image_name : Option String
  awaiting_ack : Bool
  missing_chunks_requested : List Nat
  temperature : Rat
  humidity : Rat
  pressure : Rat
  gas_resistance : Rat

/-- Python truthiness of `self.current_image_name` (line 148,
`if self.current_image_name:`): None and the empty string are falsy. -/
def pyTruthyStr : Option String → Bool
  | none => false
  | some s => s ≠ ""

/-- The data topic `f"ESP32CAM/{self.device_mac}/data"`. -/
def dataTopic (mac : String) : String := "ESP32CAM/" ++ mac ++ "/data"

/-- The status topic `f"device/{self.device_mac}/status"`. -/
def statusTopic (mac : String) : String := "device/" ++ mac ++ "/status"

/-- `total_chunks = (len(image_data) + chunk_size - 1) // chunk_size`
(lines 222 and 252): the ceiling of size / chunk_size in integer arithmetic.
(A zero chunk_size raises ZeroDivisionError in Python and never occurs.) -/
def total_chunks (n cs : Nat) : Nat := (n + cs - 1) / cs

/-- The byte range of chunk `id`: `image_data[start:min(start+chunk_size, len)]`
with `start = chunk_id * chunk_size` (lines 262-264). -/
def chunkSlice (data : List Nat) (cs id : Nat) : List Nat :=
  (data.drop (id * cs)).take cs

/-- A chunk message as built in `_send_chunks` / `_send_missing_chunks`
(lines 266-272 and 300-306): the payload is `list(chunk_data)`, a JSON array
of the chunk's byte values. -/
def chunkMsg (mac name : String) (id cs : Nat) (payload : List Nat) : JObj :=
  [("device_id", .str mac), ("image_name", .str name), ("chunk_id", .num id),
   ("max_chunk_size", .num cs), ("payload", .arr payload)]

/-- The metadata message of `_send_metadata` (lines 224-237).  Note the field
name `total_chunks_count`.  The capture timestamp, location and the four
telemetry readings are opaque values supplied by the caller. -/
def metadataMsg (mac ts name : String) (size cs tot : Nat) (loc : String)
    (temp hum pres gas : JVal) : JObj :=
  [("device_id", .str mac), ("capture_timestamp", .str ts), ("image_name", .str name),
   ("image_size", .num size), ("max_chunk_size", .num cs),
   ("total_chunks_count", .num tot), ("location", .str loc), ("error", .num 0),
   ("temperature", temp), ("humidity", hum), ("pressure", pres), ("gas_resistance", gas)]

/-- `_send_chunks` (lines 248-283): one message per chunk index in ascending
order; in test mode "missing_chunks" the indices 2, 5 and 8 are skipped. -/
def send_chunks (mode mac name : String) (data : List Nat) (cs : Nat) : List JObj :=
  ((List.range (total_chunks data.length cs)).filter
      (fun id => !(mode == "missing_chunks" && (id == 2 || id == 5 || id == 8)))).map
    (fun id => chunkMsg mac name id cs (chunkSlice data cs id))

/-- `_send_missing_chunks` (lines 285-310): resend the chunks named in the
notice.  The device does not keep the original image data; it regenerates
`image_data` afresh (random size in [30000, 80000], plus 4 magic bytes and a
2-byte trailer replacing/extending it to length size + 2) and slices that,
with a hard-coded chunk size of 8192.  The regenerated bytes are passed in as
`image_data` by the caller, standing for the `os.urandom` result. -/
def send_missing_chunks (mac name : String) (ids : List Nat) (image_data : List Nat) :
    List (String × JObj) :=
  ids.map (fun id => (dataTopic mac, chunkMsg mac name id 8192 (chunkSlice image_data 8192 id)))

/-- The status message of send_status_message (lines 166-170). -/
def statusMsg (mac : String) (pending : Nat) : JObj :=
  [("device_id", .str mac), ("status", .str "alive"), ("pendingImg", .num pending)]

/-- `_handle_ack` (lines 140-160).  A payload with a `missing_chunks` field:
the index list is recorded in `missing_chunks_requested`, and if a transfer
is in progress (`current_image_name` truthy) the named chunks are resent from
regenerated data (`fresh`).  A non-list value under `missing_chunks` raises
at the `len(...)` log call before any state is touched.  Otherwise, a payload
with an `ACK_OK` field whose value is an object clears `awaiting_ack`,
`current_image_name` and `missing_chunks_requested`; a non-object `ACK_OK`
value raises at `.get` before any state is touched.  Returns the new state
and the published messages. -/
def handle_ack (st : DeviceState) (payload : JObj) (fresh : List Nat) :
    DeviceState × List (String × JObj) :=
  match lookupA "missing_chunks" payload with
  | some (.arr mc) =>
    let st2 := { st with missing_chunks_requested := mc }
    match st.current_image_name with
    | some nm =>
      if nm ≠ "" then (st2, send_missing_chunks st.device_mac nm mc fresh)
      else (st2, [])
    | none => (st2, [])
  | some _ => (st, [])
  | none =>
    match lookupA "ACK_OK" payload with
    | some (.obj _) =>
      ({ st with awaiting_ack := false, current_image_name := none,
                 missing_chunks_requested := [] }, [])
    | some _ => (st, [])
    | none => (st, [])

/-- The server's missing-chunk acknowledgment `{"missing_chunks": [...]}`. -/
def ackMissingMsg (mc : List Nat) : JObj := [("missing_chunks", .arr mc)]

/-- Iterate `_handle_ack` on the same acknowledgment payload: the device's
reaction to `n` consecutive missing-chunk notices, collecting the messages
published in each round. -/
def ackRounds (payload : JObj) (fresh : List Nat) :
    Nat → DeviceState → DeviceState × List (List (String × JObj))
  | 0, st => (st, [])
  | n + 1, st =>
    (((ackRounds payload fresh n (handle_ack st payload fresh).1)).1,
      (handle_ack st payload fresh).2 ::
        (ackRounds payload fresh n (handle_ack st payload fresh).1).2)

/-! ## Offline-recovery drain (simulate_offline_recovery, lines 312-338)

The drain first publishes one status message announcing the pending count,
then loops over the pending images: each iteration emits one full transfer
(`capture_and_send_image`, which sets `awaiting_ack`) and then blocks in a
wait loop until either the acknowledgment clears `awaiting_ack` ("acked") or
30 seconds elapse ("timeout"); on a timeout the loop breaks and no further
image is attempted.  Real time and the concurrent MQTT callback are
abstracted into an outcome oracle `o : Nat → Outcome` giving, for each image
index, whether its acknowledgment arrived within the wait timeout.  The
drain's observable behaviour is the resulting event trace. -/

inductive Outcome where
  | acked
  | timeout
deriving DecidableEq

/-- Trace events of the recovery drain: the status announcement (with its
pending count), the start of the transfer session for image `i`
(capture_and_send_image: metadata, chunk stream, awaiting_ack := True), and
the terminal outcome of the wait for image `i`. -/
inductive TraceEv where
  | statusEv (pending : Nat)
  | startT (i : Nat)
  | termT (i : Nat) (o : Outcome)
deriving DecidableEq

/-- The `for i in range(...)` loop of simulate_offline_recovery with its
`break` on timeout: `fuel` is the number of remaining iterations, `i` the
current image index. -/
def drainLoop (o : Nat → Outcome) : Nat → Nat → List TraceEv
  | 0, _ => []
  | fuel + 1, i =>
    TraceEv.startT i :: TraceEv.termT i (o i) ::
      (match o i with
       | .acked => drainLoop o fuel (i + 1)
       | .timeout => [])

/-- simulate_offline_recovery: announce the pending count, then drain. -/
def recoveryTrace (n : Nat) (o : Nat → Outcome) : List TraceEv :=
  TraceEv.statusEv n :: drainLoop o n 0

/-- The number of transfer sessions the drain loop actually starts: it runs
through acknowledged images and stops after the first timeout (or when the
backlog is exhausted). -/
def ranCount (o : Nat → Outcome) : Nat → Nat → Nat
  | 0, _ => 0
  | fuel + 1, i =>
    1 + (match o i with
         | .acked => ranCount o fuel (i + 1)
         | .timeout => 0)

/-- The ascending index segment [s, s + n): the session indices of a drain
run, written without List.range so splitting at an arbitrary start is direct. -/
def seg : Nat → Nat → List Nat
  | _, 0 => []
  | s, n + 1 => s :: seg (s + 1) n

/-- Count of session starts in a trace. -/
def startCount : List TraceEv → Nat
  | [] => 0
  | TraceEv.startT _ :: t => startCount t + 1
  | _ :: t => startCount t

/-- Count of session terminations in a trace. -/
def termCount : List TraceEv → Nat
  | [] => 0
  | TraceEv.termT _ _ :: t => termCount t + 1
  | _ :: t => termCount t

/-- `p` is an initial segment of `l`. -/
def headSeg {α : Type} (p l : List α) : Prop := ∃ q, p ++ q = l

/-! ## Helper lemmas about the map and key-list operations -/

theorem lookupA_setA_self {α : Type} (k : String) (v : α) (m : List (String × α)) :
    lookupA k (setA k v m) = some v := by
  induction m with
  | nil => simp [setA, lookupA]
  | cons p t ih =>
    obtain ⟨k2, v2⟩ := p
    by_cases hk : k = k2
    · simp [setA, hk, lookupA]
    · simp [setA, hk, lookupA, ih]

/-- The key set of a chunk map, as a flat list operation mirroring
`insertChunk`. -/
def keyInsert (i : Nat) : List Nat → List Nat
  | [] => [i]
  | k :: t => if i < k then i :: k :: t else if i = k then i :: t else k :: keyInsert i t

theorem keys_insertChunk (i : Nat) (bs : List Nat) (l : List (Nat × List Nat)) :
    (insertChunk i bs l).map Prod.fst = keyInsert i (l.map Prod.fst) := by
  induction l with
  | nil => simp [insertChunk, keyInsert]
  | cons p t ih =>
    obtain ⟨k, v⟩ := p
    by_cases h1 : i < k
    · simp [insertChunk, keyInsert, h1]
    · by_cases h2 : i = k
      · simp [insertChunk, keyInsert, h1, h2]
      · simp [insertChunk, keyInsert, h1, h2, ih]

theorem mem_keyInsert (i x : Nat) (l : List Nat) :
    x ∈ keyInsert i l ↔ x = i ∨ x ∈ l := by
  induction l with
  | nil => simp [keyInsert]
  | cons k t ih =>
    by_cases h1 : i < k
    · simp [keyInsert, h1]
    · by_cases h2 : i = k
      · subst h2; simp [keyInsert, h1]
      · simp [keyInsert, h1, h2, ih]; tauto

theorem head_keyInsert (i : Nat) (l : List Nat) :
    (keyInsert i l).head? = some i ∨ (keyInsert i l).head? = l.head? := by
  cases l with
  | nil => left; simp [keyInsert]
  | cons k t =>
    by_cases h1 : i < k
    · left; simp [keyInsert, h1]
    · by_cases h2 : i = k
      · left; simp [keyInsert, h1, h2]
      · right; simp [keyInsert, h1, h2]

theorem chain_keyInsert (i : Nat) (l : List Nat) (hs : List.Chain' (· < ·) l) :
    List.Chain' (· < ·) (keyInsert i l) := by
  induction l with
  | nil => simp [keyInsert]
  | cons k t ih =>
    have hk : ∀ y ∈ t.head?, k < y := (List.chain'_cons'.mp hs).1
    have ht : List.Chain' (· < ·) t := (List.chain'_cons'.mp hs).2
    by_cases h1 : i < k
    · rw [keyInsert, if_pos h1, List.chain'_cons']
      exact ⟨fun y hy => by simp at hy; omega, hs⟩
    · by_cases h2 : i = k
      · rw [keyInsert, if_neg h1, if_pos h2, h2]
        exact hs
      · rw [keyInsert, if_neg h1, if_neg h2, List.chain'_cons']
        refine ⟨fun y hy => ?_, ih ht⟩
        rcases head_keyInsert i t with h | h
        · rw [h] at hy; simp at hy; omega
        · rw [h] at hy; exact hk y hy

theorem length_keyInsert_le (i : Nat) (l : List Nat) :
    (keyInsert i l).length ≤ l.length + 1 := by
  induction l with
  | nil => simp [keyInsert]
  | cons k t ih =>
    by_cases h1 : i < k
    · simp [keyInsert, h1]
    · by_cases h2 : i = k
      · simp [keyInsert, h1, h2]
      · simp [keyInsert, h1, h2]; omega

theorem chain_lt_nodup (l : List Nat) (hs : List.Chain' (· < ·) l) : l.Nodup :=
  (List.chain'_iff_pairwise.mp hs).nodup

/-! ## The ascending segment `seg` and the pigeonhole facts used for the
completeness analysis -/

theorem mem_seg (x s n : Nat) : x ∈ seg s n ↔ s ≤ x ∧ x < s + n := by
  induction n generalizing s with
  | zero => simp [seg]
  | succ m ih => rw [seg]; simp [ih]; omega

theorem chain_seg (s n : Nat) : List.Chain' (· < ·) (seg s n) := by
  induction n generalizing s with
  | zero => simp [seg]
  | succ m ih =>
    rw [seg, List.chain'_cons']
    refine ⟨fun y hy => ?_, ih (s + 1)⟩
    cases m with
    | zero => simp [seg] at hy
    | succ m2 => rw [seg] at hy; simp at hy; omega

theorem length_seg (s n : Nat) : (seg s n).length = n := by
  induction n generalizing s with
  | zero => simp [seg]
  | succ m ih => rw [seg]; simp [ih]

theorem toFinset_of_chain_bounded (ks : List Nat) (t : Nat)
    (hs : List.Chain' (· < ·) ks) (hb : ∀ x ∈ ks, x < t) (hlen : ks.length = t) :
    ks.toFinset = Finset.range t := by
  have nd : ks.Nodup := chain_lt_nodup ks hs
  have hsub : ks.toFinset ⊆ Finset.range t := by
    intro x hx
    rw [List.mem_toFinset] at hx
    rw [Finset.mem_range]
    exact hb x hx
  have hcard : (Finset.range t).card ≤ ks.toFinset.card := by
    rw [Finset.card_range, List.toFinset_card_of_nodup nd, hlen]
  exact Finset.eq_of_subset_of_card_le hsub hcard

/-- Pigeonhole, iff form: a strictly sorted key list bounded by `t` has
length `t` exactly when it contains every index below `t`. -/
theorem keysFullIff (ks : List Nat) (t : Nat)
    (hs : List.Chain' (· < ·) ks) (hb : ∀ x ∈ ks, x < t) :
    ks.length = t ↔ ∀ i, i < t → i ∈ ks := by
  constructor
  · intro hlen i hi
    have := toFinset_of_chain_bounded ks t hs hb hlen
    have : i ∈ ks.toFinset := by rw [this]; exact Finset.mem_range.mpr hi
    exact List.mem_toFinset.mp this
  · intro hall
    have nd : ks.Nodup := chain_lt_nodup ks hs
    have h1 : ks.length ≤ t := by
      calc ks.length = ks.toFinset.card := (List.toFinset_card_of_nodup nd).symm
        _ ≤ (Finset.range t).card := Finset.card_le_card (by
              intro x hx
              rw [List.mem_toFinset] at hx
              exact Finset.mem_range.mpr (hb x hx))
        _ = t := Finset.card_range t
    have h2 : t ≤ ks.length := by
      calc t = (Finset.range t).card := (Finset.card_range t).symm
        _ ≤ ks.toFinset.card := Finset.card_le_card (by
              intro x hx
              rw [Finset.mem_range] at hx
              exact List.mem_toFinset.mpr (hall x hx))
        _ = ks.length := List.toFinset_card_of_nodup nd
    omega

/-- Pigeonhole, equality form: a strictly sorted key list bounded by `t` of
length `t` is exactly the segment [0, t). -/
theorem keysFullEq (ks : List Nat) (t : Nat)
    (hs : List.Chain' (· < ·) ks) (hb : ∀ x ∈ ks, x < t) (hlen : ks.length = t) :
    ks = seg 0 t := by
  have nd : ks.Nodup := chain_lt_nodup ks hs
  have ndseg : (seg 0 t).Nodup := chain_lt_nodup _ (chain_seg 0 t)
  have hfin : ks.toFinset = (seg 0 t).toFinset := by
    rw [toFinset_of_chain_bounded ks t hs hb hlen]
    ext x
    rw [List.mem_toFinset, mem_seg, Finset.mem_range]
    omega
  have hperm := List.perm_of_nodup_nodup_toFinset_eq nd ndseg hfin
  haveI : IsAntisymm Nat (· < ·) := ⟨fun a b h1 h2 => absurd h2 (Nat.lt_asymm h1)⟩
  exact List.eq_of_perm_of_sorted hperm
    (List.chain'_iff_pairwise.mp hs) (List.chain'_iff_pairwise.mp (chain_seg 0 t))

/-! ## Chunk values and assembled bytes -/

theorem values_insertChunk (f : Nat → List Nat) (i : Nat) (bs : List Nat)
    (l : List (Nat × List Nat)) (hv : ∀ p ∈ l, p.2 = f p.1) (hb : bs = f i) :
    ∀ p ∈ insertChunk i bs l, p.2 = f p.1 := by
  induction l with
  | nil =>
    intro p hp
    simp [insertChunk] at hp
    rw [hp, hb]
  | cons q t ih =>
    obtain ⟨k, v⟩ := q
    intro p hp
    by_cases h1 : i < k
    · rw [insertChunk, if_pos h1] at hp
      rcases List.mem_cons.mp hp with h | h
      · rw [h, hb]
      · exact hv p h
    · by_cases h2 : i = k
      · rw [insertChunk, if_neg h1, if_pos h2] at hp
        rcases List.mem_cons.mp hp with h | h
        · rw [h, hb]
        · exact hv p (List.mem_cons_of_mem _ h)
      · rw [insertChunk, if_neg h1, if_neg h2] at hp
        rcases List.mem_cons.mp hp with h | h
        · rw [h]; exact hv (k, v) (List.mem_cons_self _ _)
        · exact ih (fun q hq => hv q (List.mem_cons_of_mem _ hq)) p h

theorem lookupChunk_insertChunk_self (i : Nat) (bs : List Nat)
    (l : List (Nat × List Nat)) :
    lookupChunk i (insertChunk i bs l) = some bs := by
  induction l with
  | nil => simp [insertChunk, lookupChunk]
  | cons q t ih =>
    obtain ⟨k, v⟩ := q
    by_cases h1 : i < k
    · simp [insertChunk, h1, lookupChunk]
    · by_cases h2 : i = k
      · simp [insertChunk, h1, h2, lookupChunk]
      · simp [insertChunk, h1, h2, lookupChunk, ih]

/-- The canonical assembled bytes of an image with `t` chunks whose chunk
`i` holds bytes `f i`: the chunks joined in ascending index order. -/
def assembleAll (t : Nat) (f : Nat → List Nat) : List Nat :=
  ((seg 0 t).map f).flatten

theorem mergedBytes_of_values (f : Nat → List Nat) (l : List (Nat × List Nat))
    (hv : ∀ p ∈ l, p.2 = f p.1) :
    mergedBytes l = ((l.map Prod.fst).map f).flatten := by
  unfold mergedBytes
  rw [List.map_map]
  congr 1
  exact List.map_congr_left hv

/-- A complete, strictly sorted, in-range chunk map with consistent bytes
assembles to the canonical byte sequence. -/
theorem mergedBytes_complete (f : Nat → List Nat) (t : Nat)
    (l : List (Nat × List Nat))
    (hs : List.Chain' (· < ·) (l.map Prod.fst))
    (hb : ∀ x ∈ l.map Prod.fst, x < t)
    (hv : ∀ p ∈ l, p.2 = f p.1)
    (hlen : l.length = t) :
    mergedBytes l = assembleAll t f := by
  rw [mergedBytes_of_values f l hv,
    keysFullEq (l.map Prod.fst) t hs hb (by rw [List.length_map]; exact hlen)]
  rfl

/-! ## Delivering chunk streams to the receiver -/

/-- Deliver a list of already-decoded chunk messages (index, bytes) for one
image to the receiver, each through the chunk branch of on_message. -/
def deliver (key name : String) (msgs : List (Nat × List Nat)) (st : RState) : RState :=
  msgs.foldl (fun s p => chunkStep key name p.1 p.2 s) st

theorem deliver_cons (key name : String) (p : Nat × List Nat)
    (msgs : List (Nat × List Nat)) (st : RState) :
    deliver key name (p :: msgs) st
      = deliver key name msgs (chunkStep key name p.1 p.2 st) := rfl

/-- The receiver state right after the metadata message announcing `t` chunks
for a fresh image: one buffer with no chunks, nothing saved. -/
def startSt (key : String) (t : Nat) : RState :=
  ⟨[(key, ⟨some (JVal.num t), [], 0⟩)], []⟩

/-- The distinct index set of a chunk message list, ascending: the index
sequence of an in-order duplicate-free delivery of the same chunks. -/
def support (msgs : List (Nat × List Nat)) : List Nat :=
  msgs.foldr (fun p acc => keyInsert p.1 acc) []

theorem support_cons (p : Nat × List Nat) (rest : List (Nat × List Nat)) :
    support (p :: rest) = keyInsert p.1 (support rest) := rfl

theorem mem_support (x : Nat) (msgs : List (Nat × List Nat)) :
    x ∈ support msgs ↔ x ∈ msgs.map Prod.fst := by
  induction msgs with
  | nil => simp [support]
  | cons p rest ih =>
    rw [support_cons, mem_keyInsert, ih]
    simp

theorem chain_support (msgs : List (Nat × List Nat)) :
    List.Chain' (· < ·) (support msgs) := by
  induction msgs with
  | nil => simp [support]
  | cons p rest ih => rw [support_cons]; exact chain_keyInsert _ _ ih

/-- The in-order duplicate-free delivery of the index list `S` with per-index
bytes `f`. -/
def canonicalMsgs (S : List Nat) (f : Nat → List Nat) : List (Nat × List Nat) :=
  S.map (fun i => (i, f i))

/-- chunkStep on a state holding exactly one buffer, written out: insert the
chunk, and when the stored-chunk count equals `max_chunks` assemble, save and
evict, otherwise keep the grown buffer. -/
theorem chunkStep_singleton (key name : String) (id : Nat) (bytes : List Nat)
    (mx : Option JVal) (l : List (Nat × List Nat)) (sv : List (String × List Nat)) :
    chunkStep key name id bytes ⟨[(key, ⟨mx, l, l.length⟩)], sv⟩ =
      if countEqMax (insertChunk id bytes l).length mx then
        ⟨[], sv ++ [(name, mergedBytes (insertChunk id bytes l))]⟩
      else
        ⟨[(key, ⟨mx, insertChunk id bytes l, (insertChunk id bytes l).length⟩)], sv⟩ := by
  by_cases h : countEqMax (insertChunk id bytes l).length mx = true
  · simp [chunkStep, buffOf, lookupA, setA, save_image, eraseA, h]
  · simp [chunkStep, buffOf, lookupA, setA, h]

/-- chunkStep on a buffer that never saw metadata (`max_chunks` is None):
the chunk is stored but the Python comparison `int == None` is False, so the
image is never saved. -/
theorem chunkStep_nomax (key name : String) (id : Nat) (bytes : List Nat)
    (st : RState) (h : (buffOf st key).max_chunks = none) :
    chunkStep key name id bytes st =
      ⟨setA key ⟨none, insertChunk id bytes (buffOf st key).chunks,
          (insertChunk id bytes (buffOf st key).chunks).length⟩ st.image_chunks,
        st.saved⟩ := by
  simp [chunkStep, h, countEqMax]

/-- Chunks delivered to an image whose buffer has no metadata never trigger a
save. -/
theorem deliver_nomax (key name : String) (msgs : List (Nat × List Nat)) :
    ∀ st : RState, (buffOf st key).max_chunks = none →
      (deliver key name msgs st).saved = st.saved := by
  induction msgs with
  | nil => intro st _; rfl
  | cons p rest ih =>
    intro st h
    have hb : (buffOf (⟨setA key ⟨none, insertChunk p.1 p.2 (buffOf st key).chunks,
        (insertChunk p.1 p.2 (buffOf st key).chunks).length⟩ st.image_chunks,
        st.saved⟩ : RState) key).max_chunks = none := by
      simp [buffOf, lookupA_setA_self]
    rw [deliver_cons, chunkStep_nomax key name p.1 p.2 st h, ih _ hb]

/-- Delivering a chunk stream with consistent per-index bytes whose indices
are in range and jointly (with the chunks already stored) cover the whole
range saves the canonical assembled bytes exactly once. -/
theorem deliver_completes (key name : String) (t : Nat) (f : Nat → List Nat) :
    ∀ (msgs l : List (Nat × List Nat)) (sv : List (String × List Nat)),
      List.Chain' (· < ·) (l.map Prod.fst) →
      (∀ p ∈ l, p.1 < t ∧ p.2 = f p.1) →
      l.length < t →
      (∀ p ∈ msgs, p.1 < t ∧ p.2 = f p.1) →
      (∀ i, i < t → i ∈ l.map Prod.fst ∨ i ∈ msgs.map Prod.fst) →
      (deliver key name msgs
          (⟨[(key, ⟨some (JVal.num t), l, l.length⟩)], sv⟩ : RState)).saved
        = sv ++ [(name, assembleAll t f)] := by
  intro msgs
  induction msgs with
  | nil =>
    intro l sv hs hv hlen _ hc
    exfalso
    have hb : ∀ x ∈ l.map Prod.fst, x < t := by
      intro x hx
      obtain ⟨p, hp, hpx⟩ := List.mem_map.mp hx
      rw [← hpx]
      exact (hv p hp).1
    have hall : ∀ i, i < t → i ∈ l.map Prod.fst := by
      intro i hi
      rcases hc i hi with h | h
      · exact h
      · simp at h
    have hfull := (keysFullIff (l.map Prod.fst) t hs hb).mpr hall
    rw [List.length_map] at hfull
    omega
  | cons p rest ih =>
    intro l sv hs hv hlen hm hc
    have hit : p.1 < t := (hm p (List.mem_cons_self _ _)).1
    have hbytes : p.2 = f p.1 := (hm p (List.mem_cons_self _ _)).2
    have hbl : ∀ x ∈ l.map Prod.fst, x < t := by
      intro x hx
      obtain ⟨q, hq, hqx⟩ := List.mem_map.mp hx
      rw [← hqx]
      exact (hv q hq).1
    rw [deliver_cons, chunkStep_singleton]
    have hs2 : List.Chain' (· < ·) ((insertChunk p.1 p.2 l).map Prod.fst) := by
      rw [keys_insertChunk]
      exact chain_keyInsert _ _ hs
    have hv2 : ∀ q ∈ insertChunk p.1 p.2 l, q.2 = f q.1 :=
      values_insertChunk f p.1 p.2 l (fun q hq => (hv q hq).2) hbytes
    have hb2 : ∀ x ∈ (insertChunk p.1 p.2 l).map Prod.fst, x < t := by
      intro x hx
      rw [keys_insertChunk, mem_keyInsert] at hx
      rcases hx with h | h
      · rw [h]; exact hit
      · exact hbl x h
    have hlen2 : (insertChunk p.1 p.2 l).length ≤ t := by
      have h1 := length_keyInsert_le p.1 (l.map Prod.fst)
      rw [← keys_insertChunk p.1 p.2 l] at h1
      simp only [List.length_map] at h1
      omega
    by_cases hfull : (insertChunk p.1 p.2 l).length = t
    · rw [if_pos (by simp [countEqMax]; exact hfull)]
      rw [deliver_nomax key name rest _ (by simp [buffOf, lookupA, defaultBuffer])]
      rw [mergedBytes_complete f t _ hs2 hb2 hv2 hfull]
    · rw [if_neg (by simp [countEqMax]; exact hfull)]
      have hlv2 : ∀ q ∈ insertChunk p.1 p.2 l, q.1 < t ∧ q.2 = f q.1 :=
        fun q hq => ⟨hb2 q.1 (List.mem_map.mpr ⟨q, hq, rfl⟩), hv2 q hq⟩
      refine ih (insertChunk p.1 p.2 l) sv hs2 hlv2 (by omega)
        (fun q hq => hm q (List.mem_cons_of_mem _ hq)) ?_
      intro i hi
      rcases hc i hi with h | h
      · left
        rw [keys_insertChunk, mem_keyInsert]
        right
        exact h
      · rw [List.map_cons, List.mem_cons] at h
        rcases h with h | h
        · left
          rw [keys_insertChunk, mem_keyInsert]
          left
          exact h
        · right
          exact h

/-- If some in-range index `j` is delivered neither before nor during a chunk
stream of in-range indices, the buffer never fills and nothing is saved. -/
theorem deliver_never_full (key name : String) (t j : Nat) (hj : j < t) :
    ∀ (msgs l : List (Nat × List Nat)) (sv : List (String × List Nat)),
      List.Chain' (· < ·) (l.map Prod.fst) →
      (∀ p ∈ l, p.1 < t ∧ p.1 ≠ j) →
      (∀ p ∈ msgs, p.1 < t ∧ p.1 ≠ j) →
      (deliver key name msgs
          (⟨[(key, ⟨some (JVal.num t), l, l.length⟩)], sv⟩ : RState)).saved = sv := by
  intro msgs
  induction msgs with
  | nil => intro l sv _ _ _; rfl
  | cons p rest ih =>
    intro l sv hs hl hm
    have hs2 : List.Chain' (· < ·) ((insertChunk p.1 p.2 l).map Prod.fst) := by
      rw [keys_insertChunk]
      exact chain_keyInsert _ _ hs
    have hks : ∀ x ∈ (insertChunk p.1 p.2 l).map Prod.fst, x < t ∧ x ≠ j := by
      intro x hx
      rw [keys_insertChunk, mem_keyInsert] at hx
      rcases hx with h | h
      · rw [h]
        exact ⟨(hm p (List.mem_cons_self _ _)).1, (hm p (List.mem_cons_self _ _)).2⟩
      · obtain ⟨q, hq, hqx⟩ := List.mem_map.mp h
        rw [← hqx]
        exact hl q hq
    have hnofull : (insertChunk p.1 p.2 l).length ≠ t := by
      have nd := chain_lt_nodup _ hs2
      have hsub : ((insertChunk p.1 p.2 l).map Prod.fst).toFinset
          ⊆ (Finset.range t).erase j := by
        intro x hx
        rw [List.mem_toFinset] at hx
        rcases hks x hx with ⟨h1, h2⟩
        exact Finset.mem_erase.mpr ⟨h2, Finset.mem_range.mpr h1⟩
      have hcard := Finset.card_le_card hsub
      rw [List.toFinset_card_of_nodup nd,
        Finset.card_erase_of_mem (Finset.mem_range.mpr hj), Finset.card_range,
        List.length_map] at hcard
      omega
    rw [deliver_cons, chunkStep_singleton,
      if_neg (by simp [countEqMax]; exact hnofull)]
    exact ih (insertChunk p.1 p.2 l) sv hs2
      (fun q hq => hks q.1 (List.mem_map.mpr ⟨q, hq, rfl⟩))
      (fun q hq => hm q (List.mem_cons_of_mem _ hq))

/-! ## Lemmas about the recovery drain trace -/

/-- Closed form of the drain loop: a flat sequence of complete session blocks
`[startT j, termT j (o j)]`, one per consecutive index starting at `i`, as
many as `ranCount` says. -/
theorem drain_closed (o : Nat → Outcome) :
    ∀ fuel i, drainLoop o fuel i =
      ((seg i (ranCount o fuel i)).map
        (fun j => [TraceEv.startT j, TraceEv.termT j (o j)])).flatten := by
  intro fuel
  induction fuel with
  | zero => intro i; simp [drainLoop, ranCount, seg]
  | succ k ih =>
    intro i
    cases h : o i with
    | acked =>
      simp only [drainLoop, ranCount, h]
      rw [ih (i + 1), Nat.add_comm 1 (ranCount o k (i + 1))]
      simp [seg, h]
    | timeout =>
      simp only [drainLoop, ranCount, h]
      simp [seg, h]

/-- Every session the drain runs, except possibly the last one it starts,
was acknowledged: the loop continues only through acked outcomes. -/
theorem ranCount_acked (o : Nat → Outcome) :
    ∀ fuel i m, i ≤ m → m + 1 < i + ranCount o fuel i → o m = Outcome.acked := by
  intro fuel
  induction fuel with
  | zero =>
    intro i m h1 h2
    simp only [ranCount] at h2
    omega
  | succ k ih =>
    intro i m h1 h2
    cases h : o i with
    | acked =>
      by_cases hm : m = i
      · rw [hm]; exact h
      · refine ih (i + 1) m (by omega) ?_
        simp only [ranCount, h] at h2
        omega
    | timeout =>
      simp only [ranCount, h] at h2
      omega

/-- Forward membership for session starts: a started index lies in the
window [i, i + ranCount). -/
theorem startT_mem_drain (o : Nat → Outcome) :
    ∀ fuel i j, TraceEv.startT j ∈ drainLoop o fuel i →
      i ≤ j ∧ j < i + ranCount o fuel i := by
  intro fuel
  induction fuel with
  | zero => intro i j h; simp [drainLoop] at h
  | succ k ih =>
    intro i j h
    cases ho : o i with
    | acked =>
      rw [drainLoop] at h
      simp only [ho, List.mem_cons] at h
      rcases h with h | h | h
      · injection h with h1
        simp only [ranCount, ho]
        omega
      · exact absurd h (by simp)
      · have := ih (i + 1) j h
        simp only [ranCount, ho]
        omega
    | timeout =>
      rw [drainLoop] at h
      simp only [ho, List.mem_cons] at h
      rcases h with h | h | h
      · injection h with h1
        simp only [ranCount, ho]
        omega
      · exact absurd h (by simp)
      · simp at h

/-- Forward membership for session terminations: the index lies in the run
window and the recorded outcome is the oracle's. -/
theorem termT_mem_drain (o : Nat → Outcome) :
    ∀ fuel i j w, TraceEv.termT j w ∈ drainLoop o fuel i →
      i ≤ j ∧ j < i + ranCount o fuel i ∧ w = o j := by
  intro fuel
  induction fuel with
  | zero => intro i j w h; simp [drainLoop] at h
  | succ k ih =>
    intro i j w h
    cases ho : o i with
    | acked =>
      rw [drainLoop] at h
      simp only [ho, List.mem_cons] at h
      rcases h with h | h | h
      · exact absurd h (by simp)
      · injection h with h1 h2
        subst h1
        refine ⟨le_refl j, ?_, by rw [h2, ho]⟩
        simp only [ranCount, ho]
        omega
      · have := ih (i + 1) j w h
        simp only [ranCount, ho]
        exact ⟨by omega, by omega, this.2.2⟩
    | timeout =>
      rw [drainLoop] at h
      simp only [ho, List.mem_cons] at h
      rcases h with h | h | h
      · exact absurd h (by simp)
      · injection h with h1 h2
        subst h1
        refine ⟨le_refl j, ?_, by rw [h2, ho]⟩
        simp only [ranCount, ho]
        omega
      · simp at h

/-- Every prefix of the drain loop has at most one unterminated session:
at most one more start than terminations. -/
theorem drain_prefix_bound (o : Nat → Outcome) :
    ∀ fuel i p q, p ++ q = drainLoop o fuel i → startCount p ≤ termCount p + 1 := by
  intro fuel
  induction fuel with
  | zero =>
    intro i p q h
    rw [drainLoop] at h
    rcases List.append_eq_nil.mp h with ⟨hp, _⟩
    rw [hp]
    simp [startCount, termCount]
  | succ k ih =>
    intro i p q h
    rw [drainLoop] at h
    cases p with
    | nil => simp [startCount, termCount]
    | cons a p1 =>
      rw [List.cons_append] at h
      injection h with h1 h2
      cases p1 with
      | nil =>
        rw [h1]
        simp [startCount, termCount]
      | cons b p2 =>
        rw [List.cons_append] at h2
        injection h2 with h3 h4
        subst h1
        subst h3
        cases ho : o i with
        | acked =>
          rw [ho] at h4
          have := ih (i + 1) p2 q h4
          simp [startCount, termCount]
          omega
        | timeout =>
          rw [ho] at h4
          rcases List.append_eq_nil.mp h4 with ⟨hp2, _⟩
          subst hp2
          simp [startCount, termCount]

/-! ## Remaining helpers -/

/-- The saved log after one chunk step: grows by the assembled bytes exactly
when the count test fires, else unchanged. -/
theorem chunkStep_saved (key name : String) (id : Nat) (bytes : List Nat) (st : RState) :
    (chunkStep key name id bytes st).saved =
      if countEqMax (insertChunk id bytes (buffOf st key).chunks).length
          (buffOf st key).max_chunks then
        st.saved ++ [(name, mergedBytes (insertChunk id bytes (buffOf st key).chunks))]
      else st.saved := by
  simp only [chunkStep]
  by_cases h : countEqMax (insertChunk id bytes (buffOf st key).chunks).length
      (buffOf st key).max_chunks = true
  · rw [if_pos h, if_pos h]
    simp only [save_image, buffOf, lookupA_setA_self, Option.getD_some]
  · rw [if_neg h, if_neg h]

theorem keys_canonicalMsgs (S : List Nat) (f : Nat → List Nat) :
    (canonicalMsgs S f).map Prod.fst = S := by
  induction S with
  | nil => rfl
  | cons a t ih =>
    simp only [canonicalMsgs, List.map_cons] at ih ⊢
    rw [ih]

/-! ## Inbound message shapes for the receiver

The receiver parses whatever JSON arrives on its data topic; these builders
produce messages in the shape its metadata and chunk branches expect (field
`total_chunk_count`, base64 string payload).  They are used as concrete
inputs to the receiver below. -/

def serverMeta (dev name : String) (t : Nat) : JObj :=
  [("device_id", .str dev), ("image_name", .str name), ("total_chunk_count", .num t)]

def serverChunk (dev name : String) (id : Nat) (p : JVal) : JObj :=
  [("device_id", .str dev), ("image_name", .str name), ("chunk_id", .num id), ("payload", p)]

/-! ## Claims -/

/-- C1: The sender does compute total_chunk_count = ceil(total_size /
chunk_size) and emits exactly that many chunk messages, but delivering the
metadata and all chunk messages to the receiver reproduces nothing: the
sender encodes each chunk payload as a JSON array of byte values and names
the metadata field `total_chunks_count`, while the receiver base64-decodes
the payload (a TypeError on an array, so the message is dropped) and
dispatches metadata on `total_chunk_count`.  On the 3-byte artifact
[1, 2, 3] with chunk_size 2 the sender emits ceil(3/2) = 2 chunk messages,
and the receiver drops the metadata and both chunks: its final state is its
initial state and nothing is ever assembled, refuting the round-trip law. -/
theorem c1_roundtrip_broken :
    (send_chunks "normal" "D" "img" [1, 2, 3] 2).length = total_chunks 3 2
    ∧ total_chunks 3 2 = 2
    ∧ recvRun initRState
        (metadataMsg "D" "ts" "img" 3 2 (total_chunks 3 2) "Test Location"
            (JVal.num 0) (JVal.num 0) (JVal.num 0) (JVal.num 0)
          :: send_chunks "normal" "D" "img" [1, 2, 3] 2)
        = (initRState, []) :=
  ⟨rfl, rfl, rfl⟩

/-- C2: When a chunk delivery completes a buffer (receiver-conformant
messages: metadata announcing 1 chunk, then chunk 0 with base64 payload
"CQ==", the byte [9]), the receiver persists the assembled bytes exactly
once and evicts the buffer — but it emits no acknowledgment whatsoever: the
handler contains no publish call, so no success acknowledgment and no
next-wake directive are produced (the outbound message list of the whole run
is empty), contradicting the claimed acknowledgment emission. -/
theorem c2_no_ack_emitted :
    recvRun initRState
        [serverMeta "D" "img" 1, serverChunk "D" "img" 0 (JVal.str "CQ==")]
      = (⟨[], [("img", [9])]⟩, []) := rfl

/-- C3 counterexample: with expected_total = 1 announced, delivering the
single chunk with the out-of-range index 5 (payload "CQ==", the byte [9])
makes the receiver's completeness condition hold — the stored-chunk count
equals max_chunks — so it saves the "complete" image [9] and evicts the
buffer, even though the in-range index 0 is missing from the mapping: the
condition is a count comparison, not the claimed per-index check. -/
theorem c3_counterexample :
    countEqMax (insertChunk 5 [9] []).length (some (JVal.num 1)) = true
    ∧ (0 : Nat) ∉ (insertChunk 5 [9] ([] : List (Nat × List Nat))).map Prod.fst
    ∧ recvRun initRState
        [serverMeta "D" "img" 1, serverChunk "D" "img" 5 (JVal.str "CQ==")]
        = (⟨[], [("img", [9])]⟩, []) :=
  ⟨rfl, by decide, rfl⟩

/-- C3 amended: the receiver assembles and saves at a chunk delivery iff the
number of distinct stored indices equals the announced total t; provided
every stored index is in range [0, t), this coincides with the claimed
condition — the save fires iff every index in [0, t) is present in the
mapping.  (Out-of-range indices break the equivalence, see the
counterexample.) -/
theorem c3_amended_thm (st : RState) (key name : String) (id : Nat)
    (bytes : List Nat) (t : Nat)
    (hmax : (buffOf st key).max_chunks = some (JVal.num t))
    (hsor : List.Chain' (· < ·) ((buffOf st key).chunks.map Prod.fst))
    (hrange : ∀ k ∈ (insertChunk id bytes (buffOf st key).chunks).map Prod.fst, k < t) :
    (chunkStep key name id bytes st).saved ≠ st.saved ↔
      ∀ i, i < t → i ∈ (insertChunk id bytes (buffOf st key).chunks).map Prod.fst := by
  have hs2 : List.Chain' (· < ·)
      ((insertChunk id bytes (buffOf st key).chunks).map Prod.fst) := by
    rw [keys_insertChunk]
    exact chain_keyInsert _ _ hsor
  have hiff := keysFullIff _ t hs2 hrange
  rw [List.length_map] at hiff
  have hsv := chunkStep_saved key name id bytes st
  rw [hmax] at hsv
  by_cases hfull : (insertChunk id bytes (buffOf st key).chunks).length = t
  · rw [if_pos (by simp [countEqMax]; exact hfull)] at hsv
    constructor
    · intro _
      exact hiff.mp hfull
    · intro _
      rw [hsv]
      intro hcontra
      have := congrArg List.length hcontra
      simp at this
  · rw [if_neg (by simp [countEqMax]; exact hfull)] at hsv
    constructor
    · intro hne
      exact absurd hsv hne
    · intro hall
      exact absurd (hiff.mpr hall) hfull

theorem c3_amended_witness :
    ((buffOf (startSt "D|img" 1) "D|img").max_chunks = some (JVal.num 1)
      ∧ List.Chain' (· < ·) ((buffOf (startSt "D|img" 1) "D|img").chunks.map Prod.fst)
      ∧ ∀ k ∈ (insertChunk 0 [7] (buffOf (startSt "D|img" 1) "D|img").chunks).map Prod.fst,
          k < 1)
    ∧ ((chunkStep "D|img" "img" 0 [7] (startSt "D|img" 1)).saved
          ≠ (startSt "D|img" 1).saved ↔
        ∀ i, i < 1 →
          i ∈ (insertChunk 0 [7] (buffOf (startSt "D|img" 1) "D|img").chunks).map Prod.fst) :=
  ⟨⟨rfl, by decide, by decide⟩,
    c3_amended_thm (startSt "D|img" 1) "D|img" "img" 0 [7] 1 rfl (by decide) (by decide)⟩

/-- C4 counterexample: the device applies no retry budget.  From a device
mid-transfer, three consecutive missing-chunk notices naming chunk 0 produce
three resend rounds (each round publishes exactly one chunk message), and
after the third notice the transfer is still active — current_image_name is
still set and awaiting_ack still true; the code has no ABANDONED state at
all.  This refutes "with B = 2, a third consecutive missing-chunk notice
yields ABANDONED rather than a fourth retry round". -/
theorem c4_counterexample :
    (ackRounds (ackMissingMsg [0]) (List.replicate 30002 0) 3
        ⟨"D", "normal", true, [], some "image_1.jpg", true, [], 0, 0, 0, 0⟩).2.map
          List.length = [1, 1, 1]
    ∧ (ackRounds (ackMissingMsg [0]) (List.replicate 30002 0) 3
        ⟨"D", "normal", true, [], some "image_1.jpg", true, [], 0, 0, 0, 0⟩).1.current_image_name
        = some "image_1.jpg"
    ∧ (ackRounds (ackMissingMsg [0]) (List.replicate 30002 0) 3
        ⟨"D", "normal", true, [], some "image_1.jpg", true, [], 0, 0, 0, 0⟩).1.awaiting_ack
        = true :=
  ⟨rfl, rfl, rfl⟩

/-- One missing-chunk notice handled while a transfer is in progress: the
device records the requested list and resends exactly the named chunks. -/
theorem handle_ack_missing_active (st : DeviceState) (nm : String) (mc fresh : List Nat)
    (h : st.current_image_name = some nm) (hne : nm ≠ "") :
    handle_ack st (ackMissingMsg mc) fresh
      = ({ st with missing_chunks_requested := mc },
          send_missing_chunks st.device_mac nm mc fresh) := by
  simp [handle_ack, ackMissingMsg, lookupA, h, hne]

/-- Iterating notices on a device that already recorded the same missing
list is a fixpoint on the state; every round resends the named chunks. -/
theorem ackRounds_missing_steady (nm : String) (mc fresh : List Nat) (hne : nm ≠ "") :
    ∀ (m : Nat) (st : DeviceState), st.current_image_name = some nm →
      st.missing_chunks_requested = mc →
      ackRounds (ackMissingMsg mc) fresh m st
        = (st, List.replicate m (send_missing_chunks st.device_mac nm mc fresh)) := by
  intro m
  induction m with
  | zero => intro st _ _; rfl
  | succ k ih =>
    intro st h1 h2
    have hstep := handle_ack_missing_active st nm mc fresh h1 hne
    have hsame : { st with missing_chunks_requested := mc } = st := by
      cases st
      simp_all
    simp only [ackRounds]
    rw [hstep]
    simp only []
    rw [hsame, ih st h1 h2]
    simp [List.replicate_succ]

/-- C4 amended: the sender has no retry budget and no ABANDONED state: every
missing-chunk notice received while a transfer is in progress — the (n+1)-st
as much as the first — records the named index list and triggers a resend of
exactly those chunks; the transfer state is otherwise untouched, so
arbitrarily many consecutive notices each produce a further retry round and
never a terminal failure. -/
theorem c4_amended_thm (st : DeviceState) (nm : String) (mc fresh : List Nat) (n : Nat)
    (h : st.current_image_name = some nm) (hne : nm ≠ "") :
    ackRounds (ackMissingMsg mc) fresh (n + 1) st
      = ({ st with missing_chunks_requested := mc },
          List.replicate (n + 1) (send_missing_chunks st.device_mac nm mc fresh)) := by
  simp only [ackRounds]
  rw [handle_ack_missing_active st nm mc fresh h hne]
  simp only []
  rw [ackRounds_missing_steady nm mc fresh hne n { st with missing_chunks_requested := mc }
    h rfl]
  simp [List.replicate_succ]

theorem c4_amended_witness :
    ((⟨"D", "normal", true, [], some "image_1.jpg", true, [], 0, 0, 0, 0⟩ :
        DeviceState).current_image_name = some "image_1.jpg"
      ∧ "image_1.jpg" ≠ "")
    ∧ ackRounds (ackMissingMsg [0]) (List.replicate 30002 0) 3
        ⟨"D", "normal", true, [], some "image_1.jpg", true, [], 0, 0, 0, 0⟩
        = (⟨"D", "normal", true, [], some "image_1.jpg", true, [0], 0, 0, 0, 0⟩,
            List.replicate 3
              (send_missing_chunks "D" "image_1.jpg" [0] (List.replicate 30002 0))) :=
  ⟨⟨rfl, by decide⟩,
    c4_amended_thm ⟨"D", "normal", true, [], some "image_1.jpg", true, [], 0, 0, 0, 0⟩
      "image_1.jpg" [0] (List.replicate 30002 0) 2 rfl (by decide)⟩

/-- C5: on a missing-chunk notice the device resends exactly the named chunk
indices (here [0]) — but not the original bytes: `_send_missing_chunks`
regenerates the image data afresh (the code itself comments that a real
device would re-read the SD card) and slices the regenerated data with a
hard-coded chunk size of 8192.  For the original 3-byte artifact [1, 2, 3]
(sent whole as chunk 0) and any regenerated data of the length the code
produces (at least 30002 bytes), the resent chunk 0 carries the first 8192
regenerated bytes — never the original [1, 2, 3]. -/
theorem c5_resend_differs (fresh : List Nat) (hlen : 30002 ≤ fresh.length) :
    ((send_missing_chunks "D" "img" [0] fresh).map (fun m => lookupA "payload" m.2)
        = [some (JVal.arr (chunkSlice fresh 8192 0))])
    ∧ chunkSlice fresh 8192 0 ≠ chunkSlice [1, 2, 3] 8192 0
    ∧ (send_chunks "normal" "D" "img" [1, 2, 3] 8192).map (fun m => lookupA "payload" m)
        = [some (JVal.arr [1, 2, 3])] := by
  refine ⟨rfl, ?_, rfl⟩
  intro hcontra
  have hl := congrArg List.length hcontra
  simp [chunkSlice] at hl
  omega

theorem c5_resend_differs_witness :
    30002 ≤ (List.replicate 30002 (0 : Nat)).length
    ∧ chunkSlice (List.replicate 30002 0) 8192 0 ≠ chunkSlice [1, 2, 3] 8192 0 := by
  have h : (List.replicate 30002 (0 : Nat)).length = 30002 := List.length_replicate 30002 0
  exact ⟨h.ge, (c5_resend_differs (List.replicate 30002 0) h.ge).2.1⟩

/-- C8 counterexample: with expected_total = 2 known for the image, the
chunk with index 5 ≥ 2 is not rejected: after delivery the buffer's mapping
contains key 5 (with its bytes [9]), refuting "the chunk is not stored". -/
theorem c8_counterexample :
    lookupChunk 5 ((buffOf (recvRun initRState
        [serverMeta "D" "img" 2, serverChunk "D" "img" 5 (JVal.str "CQ==")]).1
        "D|img").chunks)
      = some [9] := rfl

/-- C8 amended: the receiver performs no range check at all: a chunk whose
index is ≥ the known expected_total is inserted into the mapping like any
other (and even counts toward the completion count).  Whenever the insertion
does not trigger the count-equality save, the buffer afterwards holds the
out-of-range index with its bytes. -/
theorem c8_amended_thm (st : RState) (key name : String) (id : Nat)
    (bytes : List Nat) (t : Nat)
    (hmax : (buffOf st key).max_chunks = some (JVal.num t))
    (_hid : t ≤ id)
    (hnofire : (insertChunk id bytes (buffOf st key).chunks).length ≠ t) :
    lookupA key (chunkStep key name id bytes st).image_chunks
        = some ⟨some (JVal.num t), insertChunk id bytes (buffOf st key).chunks,
            (insertChunk id bytes (buffOf st key).chunks).length⟩
      ∧ lookupChunk id (insertChunk id bytes (buffOf st key).chunks) = some bytes := by
  have hcond : countEqMax (insertChunk id bytes (buffOf st key).chunks).length
      (buffOf st key).max_chunks = false := by
    rw [hmax]
    simp [countEqMax]
    exact hnofire
  refine ⟨?_, lookupChunk_insertChunk_self id bytes _⟩
  simp only [chunkStep, hcond, Bool.false_eq_true, if_false]
  rw [hmax]
  exact lookupA_setA_self key _ st.image_chunks

theorem c8_amended_witness :
    ((buffOf (startSt "D|img" 2) "D|img").max_chunks = some (JVal.num 2)
      ∧ (2 : Nat) ≤ 5
      ∧ (insertChunk 5 [9] (buffOf (startSt "D|img" 2) "D|img").chunks).length ≠ 2)
    ∧ (lookupA "D|img" (chunkStep "D|img" "img" 5 [9] (startSt "D|img" 2)).image_chunks
          = some ⟨some (JVal.num 2),
              insertChunk 5 [9] (buffOf (startSt "D|img" 2) "D|img").chunks,
              (insertChunk 5 [9] (buffOf (startSt "D|img" 2) "D|img").chunks).length⟩
        ∧ lookupChunk 5 (insertChunk 5 [9] (buffOf (startSt "D|img" 2) "D|img").chunks)
            = some [9]) :=
  ⟨⟨rfl, by decide, by decide⟩,
    c8_amended_thm (startSt "D|img" 2) "D|img" "img" 5 [9] 2 rfl (by decide) (by decide)⟩

/-- C9 counterexample: the assembled bytes are not a function of the
delivered index-to-bytes mapping alone.  The same four messages — metadata
announcing 2 chunks, then chunks 0 ("AQ==" = [1]), 1 ("Ag==" = [2]) and
5 ("Aw==" = [3]) — delivered in two permutations of the chunk indices save
different bytes: in the order 0, 1, 5 the count reaches 2 after chunks
{0, 1} and [1, 2] is saved; in the order 0, 5, 1 it reaches 2 after
{0, 5} and [1, 3] is saved. -/
theorem c9_counterexample :
    (recvRun initRState [serverMeta "D" "img" 2,
        serverChunk "D" "img" 0 (JVal.str "AQ=="), serverChunk "D" "img" 1 (JVal.str "Ag=="),
        serverChunk "D" "img" 5 (JVal.str "Aw==")]).1.saved
      ≠ (recvRun initRState [serverMeta "D" "img" 2,
          serverChunk "D" "img" 0 (JVal.str "AQ=="), serverChunk "D" "img" 5 (JVal.str "Aw=="),
          serverChunk "D" "img" 1 (JVal.str "Ag==")]).1.saved := by
  decide

/-- C9 amended: provided every delivered chunk index lies in the announced
range [0, t) and the bytes for a given index never change (bytes = f index),
the saved result is order- and duplicate-independent: delivering the chunk
messages in any order, with any number of duplicates, saves exactly what the
in-order duplicate-free delivery of the same chunks (their ascending index
support, same per-index bytes) saves.  Out-of-range indices break this, see
the counterexample. -/
theorem c9_amended_thm (key name : String) (t : Nat) (f : Nat → List Nat)
    (msgs : List (Nat × List Nat))
    (hin : ∀ p ∈ msgs, p.1 < t ∧ p.2 = f p.1) :
    (deliver key name msgs (startSt key t)).saved
      = (deliver key name (canonicalMsgs (support msgs) f) (startSt key t)).saved := by
  have hcanon : ∀ p ∈ canonicalMsgs (support msgs) f, p.1 < t ∧ p.2 = f p.1 := by
    intro p hp
    obtain ⟨i, hi, hpi⟩ := List.mem_map.mp hp
    rw [← hpi]
    refine ⟨?_, rfl⟩
    rw [mem_support] at hi
    obtain ⟨q, hq, hqi⟩ := List.mem_map.mp hi
    rw [← hqi]
    exact (hin q hq).1
  rcases Nat.eq_zero_or_pos t with ht | ht
  · subst ht
    have hnil : msgs = [] := by
      cases msgs with
      | nil => rfl
      | cons p rest => exact absurd (hin p (List.mem_cons_self _ _)).1 (by omega)
    subst hnil
    rfl
  · by_cases hcov : ∀ i, i < t → i ∈ msgs.map Prod.fst
    · have hcov2 : ∀ i, i < t → i ∈ (canonicalMsgs (support msgs) f).map Prod.fst := by
        intro i hi
        rw [keys_canonicalMsgs, mem_support]
        exact hcov i hi
      have h1 := deliver_completes key name t f msgs [] []
        (by simp) (by simp) (by simpa using ht) hin
        (fun i hi => Or.inr (hcov i hi))
      have h2 := deliver_completes key name t f (canonicalMsgs (support msgs) f) [] []
        (by simp) (by simp) (by simpa using ht) hcanon
        (fun i hi => Or.inr (hcov2 i hi))
      simp only [List.length_nil] at h1 h2
      unfold startSt
      rw [h1, h2]
    · push_neg at hcov
      obtain ⟨j, hj, hjn⟩ := hcov
      have hm1 : ∀ p ∈ msgs, p.1 < t ∧ p.1 ≠ j := by
        intro p hp
        exact ⟨(hin p hp).1, fun hpj => hjn (List.mem_map.mpr ⟨p, hp, hpj⟩)⟩
      have hm2 : ∀ p ∈ canonicalMsgs (support msgs) f, p.1 < t ∧ p.1 ≠ j := by
        intro p hp
        refine ⟨(hcanon p hp).1, ?_⟩
        intro hpj
        apply hjn
        have hmem : p.1 ∈ (canonicalMsgs (support msgs) f).map Prod.fst :=
          List.mem_map.mpr ⟨p, hp, rfl⟩
        rw [keys_canonicalMsgs, mem_support] at hmem
        rw [← hpj]
        exact hmem
      have h1 := deliver_never_full key name t j hj msgs [] []
        (by simp) (by simp) hm1
      have h2 := deliver_never_full key name t j hj (canonicalMsgs (support msgs) f) [] []
        (by simp) (by simp) hm2
      simp only [List.length_nil] at h1 h2
      unfold startSt
      rw [h1, h2]

theorem c9_amended_witness :
    (∀ p ∈ [((1 : Nat), [2]), (0, [1]), (1, [2])], p.1 < 2 ∧ p.2 = [p.1 + 1])
    ∧ (deliver "D|img" "img" [(1, [2]), (0, [1]), (1, [2])] (startSt "D|img" 2)).saved
        = (deliver "D|img" "img"
            (canonicalMsgs (support [(1, [2]), (0, [1]), (1, [2])]) (fun i => [i + 1]))
            (startSt "D|img" 2)).saved :=
  ⟨by decide,
    c9_amended_thm "D|img" "img" 2 (fun i => [i + 1]) [(1, [2]), (0, [1]), (1, [2])]
      (by decide)⟩

/-- C6: the recovery drain announces the backlog before any transfer and is
strictly sequential.  (1) Its trace is the status event followed by a flat
sequence of complete session blocks [startT j, termT j (outcome j)] in
ascending index order — each session reaches its terminal outcome before the
next one starts; (2) the status message it publishes carries the backlog
size N in the pendingImg field; (3) every prefix of the trace contains at
most one more session start than session terminations, i.e. at most one
session is ever in flight. -/
theorem c6_drain_thm (n : Nat) (o : Nat → Outcome) (mac : String) :
    recoveryTrace n o
        = TraceEv.statusEv n ::
            ((seg 0 (ranCount o n 0)).map
              (fun j => [TraceEv.startT j, TraceEv.termT j (o j)])).flatten
    ∧ lookupA "pendingImg" (statusMsg mac n) = some (JVal.num n)
    ∧ ∀ p : List TraceEv, headSeg p (recoveryTrace n o) →
        startCount p ≤ termCount p + 1 := by
  refine ⟨?_, rfl, ?_⟩
  · rw [recoveryTrace, drain_closed]
  · intro p hp
    obtain ⟨q, hq⟩ := hp
    rw [recoveryTrace] at hq
    cases p with
    | nil => simp [startCount, termCount]
    | cons a p1 =>
      rw [List.cons_append] at hq
      injection hq with h1 h2
      subst h1
      have := drain_prefix_bound o n 0 p1 q h2
      simp only [startCount, termCount]
      omega

theorem c6_drain_witness :
    headSeg [TraceEv.statusEv 2, TraceEv.startT 0]
        (recoveryTrace 2 (fun _ => Outcome.acked))
    ∧ startCount [TraceEv.statusEv 2, TraceEv.startT 0]
        ≤ termCount [TraceEv.statusEv 2, TraceEv.startT 0] + 1 :=
  ⟨⟨[TraceEv.termT 0 Outcome.acked, TraceEv.startT 1, TraceEv.termT 1 Outcome.acked], rfl⟩,
    (c6_drain_thm 2 (fun _ => Outcome.acked) "D").2.2
      [TraceEv.statusEv 2, TraceEv.startT 0]
      ⟨[TraceEv.termT 0 Outcome.acked, TraceEv.startT 1, TraceEv.termT 1 Outcome.acked], rfl⟩⟩

/-- C7: fail-fast.  If the drain's session for backlog entry i ends in a
wait timeout (its terminal failure — the loop breaks), then no session for
any later backlog entry j > i is ever started in the trace. -/
theorem c7_failfast_thm (n : Nat) (o : Nat → Outcome) (i j : Nat) (hij : i < j)
    (hterm : TraceEv.termT i Outcome.timeout ∈ recoveryTrace n o) :
    TraceEv.startT j ∉ recoveryTrace n o := by
  intro hstart
  rw [recoveryTrace, List.mem_cons] at hterm hstart
  rcases hterm with h | hterm
  · exact absurd h (by simp)
  rcases hstart with h | hstart
  · exact absurd h (by simp)
  have h1 := termT_mem_drain o n 0 i Outcome.timeout hterm
  have h2 := startT_mem_drain o n 0 j hstart
  have h3 := ranCount_acked o n 0 i (by omega) (by omega)
  rw [← h1.2.2] at h3
  exact absurd h3 (by simp)

theorem c7_failfast_witness :
    ((1 : Nat) < 2
      ∧ TraceEv.termT 1 Outcome.timeout
          ∈ recoveryTrace 3 (fun k => if k = 1 then Outcome.timeout else Outcome.acked))
    ∧ TraceEv.startT 2
        ∉ recoveryTrace 3 (fun k => if k = 1 then Outcome.timeout else Outcome.acked) :=
  ⟨⟨by decide, by decide⟩,
    c7_failfast_thm 3 (fun k => if k = 1 then Outcome.timeout else Outcome.acked) 1 2
      (by decide) (by decide)⟩

/-- C10: a missing-chunks acknowledgment received while no transfer is in
progress (current_image_name is None, hence falsy) publishes nothing, and
the only state change is that the requested index list is recorded in
missing_chunks_requested; every other device attribute — mode, connection
flag, pending images, current image, awaiting_ack, sensor readings — is
unchanged. -/
theorem c10_frame_thm (st : DeviceState) (mc fresh : List Nat)
    (h : st.current_image_name = none) :
    handle_ack st (ackMissingMsg mc) fresh
      = ({ st with missing_chunks_requested := mc }, []) := by
  simp [handle_ack, ackMissingMsg, lookupA, h]

theorem c10_frame_witness :
    (⟨"D", "normal", true, [], none, false, [], 0, 0, 0, 0⟩ :
        DeviceState).current_image_name = none
    ∧ handle_ack ⟨"D", "normal", true, [], none, false, [], 0, 0, 0, 0⟩
        (ackMissingMsg [3, 7]) []
        = (⟨"D", "normal", true, [], none, false, [3, 7], 0, 0, 0, 0⟩, []) :=
  ⟨rfl, c10_frame_thm ⟨"D", "normal", true, [], none, false, [], 0, 0, 0, 0⟩ [3, 7] [] rfl⟩
